import Mathlib

/-!
Shallow embedding of `src/day16/src/bin/part1.rs` (the time-bounded,
reward-maximizing action-sequencing engine over a valve graph), together
with theorems settling the frozen claims about its specification.

Modelling conventions:
* `u64` values (flow rates, times, scores) are modelled as `Nat`; the Rust
  code never subtracts below zero (`time - 1` is guarded by `time > 0`),
  and additive overflow of `u64` is not modelled (arithmetic is exact).
* A Rust `panic!` (a failed `unwrap` or an out-of-bounds index) is
  modelled by `Option`: `none` means the computation panics.
* `HashMap<String, NodeIndex>` is modelled as an association list in
  which a later `insert` shadows an earlier binding for the same key
  (lookup returns the most recent binding), matching `HashMap` overwrite
  semantics for `get`.
* `HashSet<&Room>` is modelled as a duplicate-free list with
  membership-guarded insertion; only its sum of flow rates is observed.
* `petgraph::DiGraph::neighbors` yields the targets of a node's outgoing
  edges in reverse order of edge insertion; `neighbors` below mirrors
  that.
* Rust's `Iterator::max_by_key` returns the last maximal element when
  several elements tie; `maxByKeyLast` below mirrors that.
-/

namespace Day16

/-- Mirrors `struct Room { valve, flow_rate }`. -/
structure Room where
  valve : String
  flow_rate : Nat
  deriving DecidableEq, Repr

/-- Mirrors `enum Step { Open { room }, Go { room } }` (lifetime elided). -/
inductive Step where
  | Open (room : Room)
  | Go (room : Room)
  deriving DecidableEq, Repr

/-- The `match step { Open { room } => room, Go { room } => room }` pattern
used inside `find_best_path`. -/
def Step.room : Step → Room
  | .Open r => r
  | .Go r => r

/-- Mirrors `struct Path { steps: Vec<Step> }` (lifetime elided). -/
structure Path where
  steps : List Step
  deriving DecidableEq, Repr

/-- Mirrors `Path::empty`. -/
def Path.empty : Path := ⟨[]⟩

/-- Mirrors `Path::add` — note that it *pushes* the step at the end of the vector. -/
def Path.add (p : Path) (s : Step) : Path := ⟨p.steps ++ [s]⟩

/-- Mirrors `open_valves.iter().map(|room| room.flow_rate).sum()`. -/
def flowSum (rooms : List Room) : Nat := (rooms.map Room.flow_rate).sum

/-- Mirrors `HashSet::insert`: inserting an already-present element is a no-op. -/
def insertRoom (r : Room) (s : List Room) : List Room :=
  if r ∈ s then s else s ++ [r]

/-- Effect of one step on the set of open valves (the body of the `match`
inside `Path::score`): `Open` inserts the room, `Go` does nothing. -/
def applyStep (s : List Room) : Step → List Room
  | .Open r => insertRoom r s
  | .Go _ => s

/-- Replay a list of steps over an initial open-valve set. -/
def applyList (s : List Room) (l : List Step) : List Room := l.foldl applyStep s

/-- The `while time > 0` loop of `Path::score`, with the open-valve set and
the remaining iterator state made explicit.  Each iteration first applies
the next step (if any) and then adds the current flow rate. -/
def scoreAux (openValves : List Room) : List Step → Nat → Nat
  | _, 0 => 0
  | [], Nat.succ t => flowSum openValves + scoreAux openValves [] t
  | s :: rest, Nat.succ t =>
      flowSum (applyStep openValves s) + scoreAux (applyStep openValves s) rest t

/-- Mirrors `Path::score`. -/
def Path.score (p : Path) (time : Nat) : Nat := scoreAux [] p.steps time

/-- Mirrors `struct TunnelScan { valve, flow_rate, paths }` (one parsed input record). -/
structure TunnelScan where
  valve : String
  flow_rate : Nat
  paths : List String
  deriving DecidableEq, Repr

/-- Mirrors `struct Tunnels { room_nodes, room_graph }`: the name-to-index map, the
node table (indexed by `NodeIndex`), and the edge list in insertion order. -/
structure Tunnels where
  room_nodes : List (String × Nat)
  nodes : List Room
  edges : List (Nat × Nat)
  deriving DecidableEq, Repr

/-- Mirrors `HashMap::get` on the association-list model: first (i.e. most
recently inserted) binding wins. -/
def mapLookup (k : String) : List (String × Nat) → Option Nat
  | [] => none
  | (k', v) :: rest => if k' = k then some v else mapLookup k rest

/-- The first loop of `Tunnels::from_scans`: insert `(valve, node_index)`
for each scan in order; a later insert shadows an earlier one, so later
bindings sit in front of earlier ones. -/
def buildRoomNodes : List TunnelScan → Nat → List (String × Nat)
  | [], _ => []
  | s :: rest, i => buildRoomNodes rest (i + 1) ++ [(s.valve, i)]

/-- Monadic map (`mapM`) over `Option`, written out for easy reasoning. -/
def omap {α β : Type} (f : α → Option β) : List α → Option (List β)
  | [] => some []
  | a :: as => do
      let b ← f a
      let bs ← omap f as
      some (b :: bs)

/-- The second loop of `Tunnels::from_scans`: for each scan, `unwrap` the
scan's own node, then `unwrap` each declared neighbor and push an edge.
A failed lookup (`unwrap` of `None`) is a panic, modelled by `none`. -/
def buildEdges (m : List (String × Nat)) : List TunnelScan → Option (List (Nat × Nat))
  | [] => some []
  | s :: rest => do
      let node ← mapLookup s.valve m
      let es ← omap (fun p => (mapLookup p m).map (fun pn => (node, pn))) s.paths
      let restEs ← buildEdges m rest
      some (es ++ restEs)

/-- Mirrors `Tunnels::from_scans`.  Here `none` models the panic on a dangling neighbor
reference; there is no validation of duplicate valve names. -/
def from_scans (scans : List TunnelScan) : Option Tunnels :=
  let m := buildRoomNodes scans 0
  let nodes : List Room := scans.map (fun s => { valve := s.valve, flow_rate := s.flow_rate })
  (buildEdges m scans).map (fun es => { room_nodes := m, nodes := nodes, edges := es })

/-- Mirrors `petgraph::DiGraph::neighbors`: targets of the node's outgoing edges,
in *reverse* order of edge insertion. -/
def neighbors (tn : Tunnels) (node : Nat) : List Nat :=
  ((tn.edges.filter (fun e => e.1 == node)).map Prod.snd).reverse

/-- Rust's `Iterator::max_by_key` fold: when the next key is `≥` the
current best's key the next element replaces it, so among equal maxima the
*last* element wins. -/
def maxByKeyLastAux {α : Type} (key : α → Nat) (b : α) : List α → α
  | [] => b
  | a :: as => maxByKeyLastAux key (if key b ≤ key a then a else b) as

/-- Mirrors `Iterator::max_by_key` (last maximal element wins; `none` on empty). -/
def maxByKeyLast {α : Type} (key : α → Nat) : List α → Option α
  | [] => none
  | x :: xs => some (maxByKeyLastAux key x xs)

/-- The `candidate_steps` iterator of `find_best_path`: one `Go` per
neighbor (in `neighbors` order, i.e. reverse edge-insertion order),
then a single `Open` of the current room, chained last.  `none` models an
out-of-range neighbor index (an indexing panic). -/
def stepCandidates (tn : Tunnels) (node : Nat) (room : Room) : Option (List Step) :=
  (omap (fun i => tn.nodes[i]?.map Step.Go) (neighbors tn node)).map
    (fun ns => ns ++ [Step.Open room])

/-- The `.map(|step| { ... find_best_path(...); path.add(step); path })`
stage of `find_best_path`, materialized as a list of candidate paths;
`prev` is the search at the next-smaller remaining time. -/
def candList (prev : String → Option Path) : List Step → Option (List Path)
  | [] => some []
  | s :: rest => do
      let p ← prev (Step.room s).valve
      let ps ← candList prev rest
      some (p.add s :: ps)

/-- Mirrors `find_best_path`.  The starting room is looked up (and `unwrap`ped)
before the `time == 0` check, exactly as in the source; candidates are
ranked by their score under `time`, the remaining time of this call. -/
def find_best_path (tn : Tunnels) (room : String) : Nat → Option Path
  | 0 => do
      let node ← mapLookup room tn.room_nodes
      let _r ← tn.nodes[node]?
      some Path.empty
  | Nat.succ t => do
      let node ← mapLookup room tn.room_nodes
      let r ← tn.nodes[node]?
      let steps ← stepCandidates tn node r
      let cands ← candList (fun rm => find_best_path tn rm t) steps
      some ((maxByKeyLast (fun p => p.score (Nat.succ t)) cands).getD Path.empty)

/-- The full list of candidate paths considered by `find_best_path` at a
given room and (positive) remaining time, in iteration order. -/
def candidatePaths (tn : Tunnels) (room : String) : Nat → Option (List Path)
  | 0 => some []
  | Nat.succ t => do
      let node ← mapLookup room tn.room_nodes
      let r ← tn.nodes[node]?
      let steps ← stepCandidates tn node r
      candList (fun rm => find_best_path tn rm t) steps

/-!
Spec-described variants, used only to compare the claims' wording against
the code.  Each follows the claim's words, not the source.
-/

/-- Modelled from the spec for claim C1: identical to `find_best_path`
except that at every recursion level the candidates are ranked by their
score under the *full original* time budget `total`, which is threaded
down unchanged. -/
def find_best_path_specT (tn : Tunnels) (room : String) (total : Nat) : Nat → Option Path
  | 0 => do
      let node ← mapLookup room tn.room_nodes
      let _r ← tn.nodes[node]?
      some Path.empty
  | Nat.succ t => do
      let node ← mapLookup room tn.room_nodes
      let r ← tn.nodes[node]?
      let steps ← stepCandidates tn node r
      let cands ← candList (fun rm => find_best_path_specT tn rm total t) steps
      some ((maxByKeyLast (fun p => p.score total) cands).getD Path.empty)

/-- Modelled from the spec for claims C4/C7: neighbors in the graph's
*declared* adjacency order (edge-insertion order), not petgraph's reversed
iteration order. -/
def neighborsDecl (tn : Tunnels) (node : Nat) : List Nat :=
  (tn.edges.filter (fun e => e.1 == node)).map Prod.snd

/-- Modelled from the spec for claim C4: among equally maximal keys the
*first* element of the list wins. -/
def maxByKeyFirstAux {α : Type} (key : α → Nat) (b : α) : List α → α
  | [] => b
  | a :: as => maxByKeyFirstAux key (if key b < key a then a else b) as

/-- Modelled from the spec for claim C4: `max_by_key` with first-maximal
tie-breaking. -/
def maxByKeyFirst {α : Type} (key : α → Nat) : List α → Option α
  | [] => none
  | x :: xs => some (maxByKeyFirstAux key x xs)

/-- Modelled from the spec for claim C4: candidate steps in the claimed
enumeration order — one `Go` per neighbor in declared order, then the
`Open` of the current room last. -/
def stepCandidatesSpec4 (tn : Tunnels) (node : Nat) (room : Room) : Option (List Step) :=
  (omap (fun i => tn.nodes[i]?.map Step.Go) (neighborsDecl tn node)).map
    (fun ns => ns ++ [Step.Open room])

/-- Modelled from the spec for claim C4: like `find_best_path` but
enumerating candidates in declared-neighbor order (then `Open`), and
selecting the *first* candidate of maximal score. -/
def find_best_path_spec4 (tn : Tunnels) (room : String) : Nat → Option Path
  | 0 => do
      let node ← mapLookup room tn.room_nodes
      let _r ← tn.nodes[node]?
      some Path.empty
  | Nat.succ t => do
      let node ← mapLookup room tn.room_nodes
      let r ← tn.nodes[node]?
      let steps ← stepCandidatesSpec4 tn node r
      let cands ← candList (fun rm => find_best_path_spec4 tn rm t) steps
      some ((maxByKeyFirst (fun p => p.score (Nat.succ t)) cands).getD Path.empty)

/-- Modelled from the spec for claim C5 (the reference Scorer): starting
from an empty active set, at step `i` (for `i < total`) first apply all
actions with index `≤ i` (a path shorter than the budget simply has no
action at the later indices, and the last active set persists), then add
the sum of the reward rates of the active set. -/
def scoreSpec (p : Path) (total : Nat) : Nat :=
  ((List.range total).map (fun i => flowSum (applyList [] (p.steps.take (i + 1))))).sum

/-! Concrete example graphs used by counterexamples and witnesses. -/

/-- Single node `AA` with flow rate `r` and no tunnels. -/
def singleScan (r : Nat) : TunnelScan := { valve := "AA", flow_rate := r, paths := [] }

/-- Records for `AA (rate 0) → BB (rate 5)`, no other edges. -/
def scansAB : List TunnelScan :=
  [ { valve := "AA", flow_rate := 0, paths := ["BB"] },
    { valve := "BB", flow_rate := 5, paths := [] } ]

/-- Records for `AA (rate 0) → BB (rate 0)`: a score tie between `Go BB` and `Open AA`. -/
def scansTie : List TunnelScan :=
  [ { valve := "AA", flow_rate := 0, paths := ["BB"] },
    { valve := "BB", flow_rate := 0, paths := [] } ]

/-- Chain `SS (0) → A0 (0) → XX (2) → MM (3) → HH (4)`: ranking by the
remaining time differs from ranking by the full original budget. -/
def scansChain : List TunnelScan :=
  [ { valve := "SS", flow_rate := 0, paths := ["A0"] },
    { valve := "A0", flow_rate := 0, paths := ["XX"] },
    { valve := "XX", flow_rate := 2, paths := ["MM"] },
    { valve := "MM", flow_rate := 3, paths := ["HH"] },
    { valve := "HH", flow_rate := 4, paths := [] } ]

/-- Records where `AA` declares neighbors `[BB, CC]`; petgraph iteration reads them back
reversed. -/
def scansABC : List TunnelScan :=
  [ { valve := "AA", flow_rate := 0, paths := ["BB", "CC"] },
    { valve := "BB", flow_rate := 1, paths := [] },
    { valve := "CC", flow_rate := 2, paths := [] } ]

/-- Duplicate declaration of `AA`. -/
def scansDup : List TunnelScan :=
  [ { valve := "AA", flow_rate := 1, paths := [] },
    { valve := "AA", flow_rate := 2, paths := [] } ]

/-- Records where `AA` references the undeclared neighbor `ZZ`. -/
def scansDangling : List TunnelScan :=
  [ { valve := "AA", flow_rate := 1, paths := ["ZZ"] } ]

/-- The graph `from_scans` builds from `scansTie`. -/
def tnTie : Tunnels := ⟨[("BB", 1), ("AA", 0)], [⟨"AA", 0⟩, ⟨"BB", 0⟩], [(0, 1)]⟩

/-- The graph `from_scans` builds from `scansAB`. -/
def tnAB : Tunnels := ⟨[("BB", 1), ("AA", 0)], [⟨"AA", 0⟩, ⟨"BB", 5⟩], [(0, 1)]⟩

/-- The graph `from_scans` builds from `scansABC`. -/
def tnABC : Tunnels :=
  ⟨[("CC", 2), ("BB", 1), ("AA", 0)], [⟨"AA", 0⟩, ⟨"BB", 1⟩, ⟨"CC", 2⟩], [(0, 1), (0, 2)]⟩

/-- Well-formedness facts that hold for every graph `from_scans` builds:
edge targets index into the node table, map values index into the node
table, and every stored room's valve name can be looked up again. -/
def GraphInv (tn : Tunnels) : Prop :=
  (∀ e ∈ tn.edges, e.2 < tn.nodes.length) ∧
  (∀ kv ∈ tn.room_nodes, kv.2 < tn.nodes.length) ∧
  (∀ r ∈ tn.nodes, (mapLookup r.valve tn.room_nodes).isSome = true)

/-!
## Lemmas about the Scorer
-/

theorem applyList_cons (S : List Room) (x : Step) (l : List Step) :
    applyList S (x :: l) = applyList (applyStep S x) l := rfl

theorem scoreAux_nil (S : List Room) (t : Nat) : scoreAux S [] t = t * flowSum S := by
  induction t with
  | zero => simp [scoreAux]
  | succ t ih =>
      simp only [scoreAux, ih, Nat.succ_mul]
      omega

theorem scoreAux_eq_spec (t : Nat) : ∀ (S : List Room) (l : List Step),
    scoreAux S l t = ((List.range t).map (fun i => flowSum (applyList S (l.take (i + 1))))).sum := by
  induction t with
  | zero => intro S l; simp [scoreAux]
  | succ t ih =>
      intro S l
      cases l with
      | nil =>
          rw [scoreAux_nil]
          simp [applyList, List.map_const', List.sum_replicate, Nat.mul_comm]
      | cons x rest =>
          rw [List.range_succ_eq_map]
          simp only [List.map_cons, List.map_map, List.sum_cons, List.take_succ_cons,
            applyList_cons, scoreAux]
          rw [ih (applyStep S x) rest]
          rfl

theorem insertRoom_of_mem {r : Room} {S : List Room} (h : r ∈ S) : insertRoom r S = S := by
  simp [insertRoom, h]

theorem mem_insertRoom (r : Room) (S : List Room) : r ∈ insertRoom r S := by
  by_cases h : r ∈ S <;> simp [insertRoom, h]

theorem scoreAux_dup (n : Room) (s : Step) (ys : List Step) :
    ∀ (xs : List Step) (S : List Room) (t : Nat),
      applyStep (applyList S (xs ++ [Step.Open n])) s = applyList S (xs ++ [Step.Open n]) →
      scoreAux S (xs ++ Step.Open n :: Step.Open n :: ys) t =
        scoreAux S (xs ++ Step.Open n :: s :: ys) t := by
  intro xs
  induction xs with
  | nil =>
      intro S t h
      have hS : applyList S ([] ++ [Step.Open n]) = applyStep S (Step.Open n) := rfl
      rw [hS] at h
      cases t with
      | zero => rfl
      | succ t =>
          simp only [List.nil_append, scoreAux]
          cases t with
          | zero => rfl
          | succ t =>
              simp only [scoreAux]
              have h2 : applyStep (applyStep S (Step.Open n)) (Step.Open n) =
                  applyStep S (Step.Open n) := by
                show insertRoom n (applyStep S (Step.Open n)) = applyStep S (Step.Open n)
                exact insertRoom_of_mem (mem_insertRoom n S)
              rw [h2, h]
  | cons x xs ih =>
      intro S t h
      cases t with
      | zero => rfl
      | succ t =>
          show flowSum (applyStep S x) +
              scoreAux (applyStep S x) (xs ++ Step.Open n :: Step.Open n :: ys) t =
            flowSum (applyStep S x) +
              scoreAux (applyStep S x) (xs ++ Step.Open n :: s :: ys) t
          rw [ih (applyStep S x) t h]

/-!
## Lemmas about the single-node graph
-/

theorem from_scans_single (r : Nat) :
    from_scans [singleScan r] = some ⟨[("AA", 0)], [⟨"AA", r⟩], []⟩ := rfl

theorem find_best_path_single (r : Nat) :
    ∀ t, find_best_path ⟨[("AA", 0)], [⟨"AA", r⟩], []⟩ "AA" t =
      some ⟨List.replicate t (Step.Open ⟨"AA", r⟩)⟩ := by
  intro t
  induction t with
  | zero => rfl
  | succ t ih =>
      rw [List.replicate_succ']
      simp [find_best_path, mapLookup, stepCandidates, neighbors, omap, candList, ih,
        maxByKeyLast, maxByKeyLastAux, Path.add, Step.room]

theorem scoreAux_single_replicate (room : Room) :
    ∀ t k, scoreAux [room] (List.replicate k (Step.Open room)) t = t * room.flow_rate := by
  intro t
  induction t with
  | zero => intro k; simp [scoreAux]
  | succ t ih =>
      intro k
      cases k with
      | zero =>
          rw [List.replicate, scoreAux_nil]
          simp [flowSum]
      | succ k =>
          have hstep : applyStep [room] (Step.Open room) = [room] :=
            insertRoom_of_mem (by simp)
          simp only [List.replicate, scoreAux, hstep, ih k]
          simp [flowSum, Nat.succ_mul]
          omega

theorem score_replicate (room : Room) (t : Nat) :
    Path.score ⟨List.replicate t (Step.Open room)⟩ t = room.flow_rate * t := by
  cases t with
  | zero => rfl
  | succ t =>
      have hstep : applyStep [] (Step.Open room) = [room] := rfl
      simp only [Path.score, List.replicate, scoreAux, hstep, scoreAux_single_replicate]
      simp only [flowSum, List.map_cons, List.map_nil, List.sum_cons, List.sum_nil]
      ring

/-!
## Lemmas about `omap`
-/

theorem omap_cons {α β : Type} (f : α → Option β) (a : α) (as : List α) :
    omap f (a :: as) = (f a).bind fun b => (omap f as).map fun bs => b :: bs := by
  cases hfa : f a with
  | none => simp [omap, hfa]
  | some b =>
      cases has : omap f as with
      | none => simp [omap, hfa, has]
      | some bs => simp [omap, hfa, has]

theorem omap_isSome_iff {α β : Type} (f : α → Option β) (l : List α) :
    (omap f l).isSome = true ↔ ∀ a ∈ l, (f a).isSome = true := by
  induction l with
  | nil => simp [omap]
  | cons a as ih =>
      rw [omap_cons]
      cases hfa : f a with
      | none => simp [hfa]
      | some b =>
          cases has : omap f as with
          | none => simp [hfa, has, ← ih]
          | some bs => simp [hfa, has, ← ih]

theorem omap_length {α β : Type} (f : α → Option β) :
    ∀ (l : List α) (l' : List β), omap f l = some l' → l'.length = l.length := by
  intro l
  induction l with
  | nil => intro l' h; simp [omap] at h; simp [← h]
  | cons a as ih =>
      intro l' h
      rw [omap_cons] at h
      cases hfa : f a with
      | none => simp [hfa] at h
      | some b =>
          cases has : omap f as with
          | none => simp [hfa, has] at h
          | some bs =>
              simp [hfa, has] at h
              rw [← h]
              simp [ih bs has]

theorem omap_mem {α β : Type} (f : α → Option β) :
    ∀ (l : List α) (l' : List β), omap f l = some l' → ∀ b ∈ l', ∃ a ∈ l, f a = some b := by
  intro l
  induction l with
  | nil => intro l' h; simp [omap] at h; simp [h]
  | cons a as ih =>
      intro l' h b hb
      rw [omap_cons] at h
      cases hfa : f a with
      | none => simp [hfa] at h
      | some b0 =>
          cases has : omap f as with
          | none => simp [hfa, has] at h
          | some bs =>
              simp [hfa, has] at h
              rw [← h] at hb
              rcases List.mem_cons.mp hb with hb | hb
              · exact ⟨a, by simp, by rw [hfa, hb]⟩
              · rcases ih bs has b hb with ⟨a', ha', hfa'⟩
                exact ⟨a', by simp [ha'], hfa'⟩

theorem omap_eq_map_of {α β : Type} (f : α → Option β) (g : α → β) :
    ∀ (l : List α), (∀ a ∈ l, f a = some (g a)) → omap f l = some (l.map g) := by
  intro l
  induction l with
  | nil => intro _; rfl
  | cons a as ih =>
      intro h
      rw [omap_cons, h a (by simp), ih (fun a' ha' => h a' (by simp [ha']))]
      rfl

theorem omap_map_comp {α β γ : Type} (f : β → Option γ) (h : α → β) :
    ∀ (l : List α), omap f (l.map h) = omap (fun a => f (h a)) l := by
  intro l
  induction l with
  | nil => rfl
  | cons a as ih => rw [List.map_cons, omap_cons, omap_cons, ih]

/-!
## Lemmas about `mapLookup` and `buildRoomNodes`
-/

theorem mapLookup_isSome_iff (k : String) :
    ∀ (m : List (String × Nat)), (mapLookup k m).isSome = true ↔ k ∈ m.map Prod.fst := by
  intro m
  induction m with
  | nil => simp [mapLookup]
  | cons kv rest ih =>
      obtain ⟨k', v⟩ := kv
      by_cases h : k' = k
      · simp [mapLookup, h]
      · have h2 : ¬(k = k') := fun hh => h hh.symm
        simp [mapLookup, h, ih, h2]

theorem mapLookup_none_of_not_mem {k : String} {m : List (String × Nat)}
    (h : k ∉ m.map Prod.fst) : mapLookup k m = none := by
  cases hm : mapLookup k m with
  | none => rfl
  | some v =>
      exfalso
      exact h ((mapLookup_isSome_iff k m).mp (by simp [hm]))

theorem mapLookup_mem (k : String) :
    ∀ (m : List (String × Nat)) (v : Nat), mapLookup k m = some v → (k, v) ∈ m := by
  intro m
  induction m with
  | nil => intro v h; simp [mapLookup] at h
  | cons kv rest ih =>
      intro v h
      obtain ⟨k', v'⟩ := kv
      by_cases hk : k' = k
      · simp [mapLookup, hk] at h
        simp [hk, h]
      · simp [mapLookup, hk] at h
        simp [ih v h]

theorem mapLookup_append_left {k : String} {m1 : List (String × Nat)} {v : Nat}
    (m2 : List (String × Nat)) (h : mapLookup k m1 = some v) :
    mapLookup k (m1 ++ m2) = some v := by
  induction m1 with
  | nil => simp [mapLookup] at h
  | cons kv rest ih =>
      obtain ⟨k', v'⟩ := kv
      by_cases hk : k' = k
      · simp [mapLookup, hk] at h ⊢
        exact h
      · simp [mapLookup, hk] at h ⊢
        exact ih h

theorem mapLookup_append_right {k : String} {m1 : List (String × Nat)}
    (m2 : List (String × Nat)) (h : mapLookup k m1 = none) :
    mapLookup k (m1 ++ m2) = mapLookup k m2 := by
  induction m1 with
  | nil => rfl
  | cons kv rest ih =>
      obtain ⟨k', v'⟩ := kv
      by_cases hk : k' = k
      · simp [mapLookup, hk] at h
      · simp [mapLookup, hk] at h ⊢
        exact ih h

theorem buildRoomNodes_keys : ∀ (scans : List TunnelScan) (i : Nat),
    (buildRoomNodes scans i).map Prod.fst = (scans.map TunnelScan.valve).reverse := by
  intro scans
  induction scans with
  | nil => intro i; rfl
  | cons s rest ih => intro i; simp [buildRoomNodes, ih (i + 1)]

theorem buildRoomNodes_values_lt : ∀ (scans : List TunnelScan) (i : Nat),
    ∀ kv ∈ buildRoomNodes scans i, kv.2 < i + scans.length := by
  intro scans
  induction scans with
  | nil => intro i kv h; simp [buildRoomNodes] at h
  | cons s rest ih =>
      intro i kv h
      simp only [buildRoomNodes, List.mem_append, List.mem_singleton] at h
      rcases h with h | h
      · have := ih (i + 1) kv h
        simp only [List.length_cons]
        omega
      · simp [h, List.length_cons]

theorem lookup_buildRoomNodes_nodup :
    ∀ (scans : List TunnelScan), (scans.map TunnelScan.valve).Nodup →
      ∀ (k j : Nat) (hj : j < scans.length),
        mapLookup ((scans.get ⟨j, hj⟩).valve) (buildRoomNodes scans k) = some (k + j) := by
  intro scans
  induction scans with
  | nil => intro _ k j hj; exact absurd hj (by simp)
  | cons s rest ih =>
      intro hnd k j hj
      rw [List.map_cons, List.nodup_cons] at hnd
      obtain ⟨hnotin, hnd'⟩ := hnd
      cases j with
      | zero =>
          have hnone : mapLookup s.valve (buildRoomNodes rest (k + 1)) = none := by
            apply mapLookup_none_of_not_mem
            rw [buildRoomNodes_keys]
            simpa using hnotin
          show mapLookup s.valve (buildRoomNodes rest (k + 1) ++ [(s.valve, k)]) = some (k + 0)
          rw [mapLookup_append_right _ hnone]
          simp [mapLookup]
      | succ j' =>
          have hj' : j' < rest.length := by simpa using hj
          have hlook := ih hnd' (k + 1) j' hj'
          show mapLookup ((rest.get ⟨j', hj'⟩).valve)
              (buildRoomNodes rest (k + 1) ++ [(s.valve, k)]) = some (k + (j' + 1))
          rw [mapLookup_append_left _ hlook]
          congr 1
          omega

/-!
## Lemmas about `buildEdges` and `from_scans`
-/

theorem buildEdges_isSome_iff (m : List (String × Nat)) :
    ∀ (scans : List TunnelScan), (buildEdges m scans).isSome = true ↔
      ∀ s ∈ scans, (mapLookup s.valve m).isSome = true ∧
        ∀ p ∈ s.paths, (mapLookup p m).isSome = true := by
  intro scans
  induction scans with
  | nil => simp [buildEdges]
  | cons s rest ih =>
      constructor
      · intro h s' hs'
        cases hv : mapLookup s.valve m with
        | none => simp [buildEdges, hv] at h
        | some node =>
            cases hes : omap (fun p => (mapLookup p m).map (fun pn => (node, pn))) s.paths with
            | none => simp [buildEdges, hv, hes] at h
            | some es =>
                cases hrest : buildEdges m rest with
                | none => simp [buildEdges, hv, hes, hrest] at h
                | some restEs =>
                    rcases List.mem_cons.mp hs' with rfl | hs'
                    · refine ⟨by rw [hv]; rfl, ?_⟩
                      intro p hp
                      have := (omap_isSome_iff _ s'.paths).mp (by rw [hes]; rfl) p hp
                      simpa using this
                    · exact (ih.mp (by simp [hrest])) s' hs'
      · intro h
        obtain ⟨hv, hps⟩ := h s (by simp)
        rw [Option.isSome_iff_exists] at hv
        obtain ⟨node, hv⟩ := hv
        have hes : (omap (fun p => (mapLookup p m).map (fun pn => (node, pn))) s.paths).isSome
            = true := by
          rw [omap_isSome_iff]
          intro p hp
          simpa using hps p hp
        rw [Option.isSome_iff_exists] at hes
        obtain ⟨es, hes⟩ := hes
        have hrest : (buildEdges m rest).isSome = true :=
          ih.mpr (fun s' hs' => h s' (by simp [hs']))
        rw [Option.isSome_iff_exists] at hrest
        obtain ⟨restEs, hrest⟩ := hrest
        simp [buildEdges, hv, hes, hrest]

theorem buildEdges_mem_values (m : List (String × Nat)) :
    ∀ (scans : List TunnelScan) (es : List (Nat × Nat)), buildEdges m scans = some es →
      ∀ e ∈ es, (∃ k1, mapLookup k1 m = some e.1) ∧ ∃ k2, mapLookup k2 m = some e.2 := by
  intro scans
  induction scans with
  | nil =>
      intro es h e he
      simp [buildEdges] at h
      rw [h] at he
      simp at he
  | cons s rest ih =>
      intro es h e he
      cases hv : mapLookup s.valve m with
      | none => simp [buildEdges, hv] at h
      | some node =>
          cases hes : omap (fun p => (mapLookup p m).map (fun pn => (node, pn))) s.paths with
          | none => simp [buildEdges, hv, hes] at h
          | some es0 =>
              cases hrest : buildEdges m rest with
              | none => simp [buildEdges, hv, hes, hrest] at h
              | some restEs =>
                  simp [buildEdges, hv, hes, hrest] at h
                  rw [← h] at he
                  rcases List.mem_append.mp he with he | he
                  · rcases omap_mem _ s.paths es0 hes e he with ⟨p, _, hp⟩
                    cases hpl : mapLookup p m with
                    | none => simp [hpl] at hp
                    | some pn =>
                        simp [hpl] at hp
                        refine ⟨⟨s.valve, ?_⟩, ⟨p, ?_⟩⟩
                        · rw [hv, ← hp]
                        · rw [hpl, ← hp]
                  · exact ih restEs hrest e he

theorem from_scans_isSome_iff (scans : List TunnelScan) :
    (from_scans scans).isSome = true ↔
      ∀ s ∈ scans, ∀ p ∈ s.paths, p ∈ scans.map TunnelScan.valve := by
  have hkeys : ∀ k, (mapLookup k (buildRoomNodes scans 0)).isSome = true ↔
      k ∈ scans.map TunnelScan.valve := by
    intro k
    rw [mapLookup_isSome_iff, buildRoomNodes_keys]
    exact List.mem_reverse
  have hsome : (from_scans scans).isSome
      = (buildEdges (buildRoomNodes scans 0) scans).isSome := by
    simp only [from_scans]
    cases buildEdges (buildRoomNodes scans 0) scans <;> rfl
  rw [hsome, buildEdges_isSome_iff]
  constructor
  · intro h s hs p hp
    exact (hkeys p).mp ((h s hs).2 p hp)
  · intro h s hs
    refine ⟨(hkeys s.valve).mpr (List.mem_map_of_mem _ hs), ?_⟩
    intro p hp
    exact (hkeys p).mpr (h s hs p hp)

theorem from_scans_graphInv {scans : List TunnelScan} {tn : Tunnels}
    (h : from_scans scans = some tn) : GraphInv tn := by
  simp only [from_scans] at h
  cases hes : buildEdges (buildRoomNodes scans 0) scans with
  | none => rw [hes] at h; exact absurd h (by simp)
  | some es =>
      rw [hes] at h
      simp only [Option.map_some', Option.some.injEq] at h
      have hlen : (scans.map (fun s => ({ valve := s.valve, flow_rate := s.flow_rate } : Room))).length
          = scans.length := by simp
      have hvals : ∀ kv ∈ buildRoomNodes scans 0, kv.2 < scans.length := by
        intro kv hkv
        have := buildRoomNodes_values_lt scans 0 kv hkv
        omega
      subst h
      refine ⟨?_, ?_, ?_⟩
      · intro e he
        have he' : e ∈ es := he
        rcases (buildEdges_mem_values _ scans es hes e he').2 with ⟨k2, hk2⟩
        have h2 := hvals _ (mapLookup_mem k2 _ _ hk2)
        show e.2 < (scans.map (fun s =>
          ({ valve := s.valve, flow_rate := s.flow_rate } : Room))).length
        rw [hlen]
        exact h2
      · intro kv hkv
        have h2 := hvals kv hkv
        show kv.2 < (scans.map (fun s =>
          ({ valve := s.valve, flow_rate := s.flow_rate } : Room))).length
        rw [hlen]
        exact h2
      · intro r hr
        have hr' : r ∈ scans.map (fun s =>
            ({ valve := s.valve, flow_rate := s.flow_rate } : Room)) := hr
        show (mapLookup r.valve (buildRoomNodes scans 0)).isSome = true
        rw [mapLookup_isSome_iff, buildRoomNodes_keys, List.mem_reverse]
        rcases List.mem_map.mp hr' with ⟨s, hs, hrr⟩
        rw [← hrr]
        exact List.mem_map_of_mem _ hs

/-!
## Lemmas about `maxByKeyLast` (Rust `max_by_key` semantics)
-/

theorem maxByKeyLastAux_mem {α : Type} (key : α → Nat) :
    ∀ (l : List α) (b : α), maxByKeyLastAux key b l ∈ b :: l := by
  intro l
  induction l with
  | nil => intro b; simp [maxByKeyLastAux]
  | cons a as ih =>
      intro b
      simp only [maxByKeyLastAux]
      by_cases h : key b ≤ key a
      · rw [if_pos h]
        rcases List.mem_cons.mp (ih a) with h' | h'
        · simp [h']
        · simp [h']
      · rw [if_neg h]
        rcases List.mem_cons.mp (ih b) with h' | h'
        · simp [h']
        · simp [h']

theorem maxByKeyLastAux_le {α : Type} (key : α → Nat) :
    ∀ (l : List α) (b x : α), x ∈ b :: l → key x ≤ key (maxByKeyLastAux key b l) := by
  intro l
  induction l with
  | nil =>
      intro b x hx
      simp at hx
      simp [maxByKeyLastAux, hx]
  | cons a as ih =>
      intro b x hx
      simp only [maxByKeyLastAux]
      by_cases h : key b ≤ key a
      · rw [if_pos h]
        rcases List.mem_cons.mp hx with rfl | hx
        · exact le_trans h (ih a a (by simp))
        · exact ih a x hx
      · rw [if_neg h]
        rcases List.mem_cons.mp hx with heq | hx2
        · rw [heq]
          exact ih b b (by simp)
        · rcases List.mem_cons.mp hx2 with heq | hx3
          · rw [heq]
            exact le_trans (le_of_lt (lt_of_not_le h)) (ih b b (by simp))
          · exact ih b x (by simp [hx3])

theorem maxByKeyLastAux_argmax {α : Type} (key : α → Nat) :
    ∀ (l : List α) (b : α), ∃ i, ∃ h : i < (b :: l).length,
      (b :: l).get ⟨i, h⟩ = maxByKeyLastAux key b l ∧
      ∀ j, ∀ hj : j < (b :: l).length, i < j →
        key ((b :: l).get ⟨j, hj⟩) < key (maxByKeyLastAux key b l) := by
  intro l
  induction l with
  | nil =>
      intro b
      refine ⟨0, by simp, rfl, ?_⟩
      intro j hj hij
      simp at hj
      omega
  | cons a as ih =>
      intro b
      simp only [maxByKeyLastAux]
      by_cases h : key b ≤ key a
      · rw [if_pos h]
        obtain ⟨i', h', hget, hlast⟩ := ih a
        refine ⟨i' + 1, by simpa using h', hget, ?_⟩
        intro j hj hij
        cases j with
        | zero => omega
        | succ j' =>
            have hj' : j' < (a :: as).length := by simpa using hj
            exact hlast j' hj' (by omega)
      · rw [if_neg h]
        obtain ⟨i', h', hget, hlast⟩ := ih b
        cases i' with
        | zero =>
            refine ⟨0, by simp, hget, ?_⟩
            intro j hj hij
            cases j with
            | zero => omega
            | succ j' =>
                cases j' with
                | zero =>
                    show key a < key (maxByKeyLastAux key b as)
                    calc key a < key b := lt_of_not_le h
                      _ ≤ key (maxByKeyLastAux key b as) := maxByKeyLastAux_le key as b b (by simp)
                | succ j'' =>
                    have hj' : j'' + 1 < (b :: as).length := by
                      simp only [List.length_cons] at hj ⊢
                      omega
                    exact hlast (j'' + 1) hj' (by omega)
        | succ k =>
            have hk : k + 2 < (b :: a :: as).length := by
              simp only [List.length_cons] at h' ⊢
              omega
            refine ⟨k + 2, hk, hget, ?_⟩
            intro j hj hij
            cases j with
            | zero => omega
            | succ j' =>
                cases j' with
                | zero => omega
                | succ j'' =>
                    have hj' : j'' + 1 < (b :: as).length := by
                      simp only [List.length_cons] at hj ⊢
                      omega
                    exact hlast (j'' + 1) hj' (by omega)

/-!
## Lemmas about `candList` and `find_best_path`
-/

theorem candList_length (prev : String → Option Path) :
    ∀ (l : List Step) (ps : List Path), candList prev l = some ps → ps.length = l.length := by
  intro l
  induction l with
  | nil => intro ps h; simp [candList] at h; simp [← h]
  | cons s rest ih =>
      intro ps h
      cases hp : prev (Step.room s).valve with
      | none => simp [candList, hp] at h
      | some p =>
          cases hps : candList prev rest with
          | none => simp [candList, hp, hps] at h
          | some ps' =>
              simp [candList, hp, hps] at h
              rw [← h]
              simp [ih ps' hps]

theorem candList_mem (prev : String → Option Path) :
    ∀ (l : List Step) (ps : List Path), candList prev l = some ps →
      ∀ x ∈ ps, ∃ s ∈ l, ∃ q, prev (Step.room s).valve = some q ∧ x = q.add s := by
  intro l
  induction l with
  | nil => intro ps h; simp [candList] at h; simp [h]
  | cons s rest ih =>
      intro ps h x hx
      cases hp : prev (Step.room s).valve with
      | none => simp [candList, hp] at h
      | some p =>
          cases hps : candList prev rest with
          | none => simp [candList, hp, hps] at h
          | some ps' =>
              simp [candList, hp, hps] at h
              rw [← h] at hx
              rcases List.mem_cons.mp hx with rfl | hx
              · exact ⟨s, by simp, p, hp, rfl⟩
              · rcases ih ps' hps x hx with ⟨s', hs', q, hq, hxq⟩
                exact ⟨s', by simp [hs'], q, hq, hxq⟩

theorem candList_isSome (prev : String → Option Path) :
    ∀ (l : List Step), (∀ s ∈ l, (prev (Step.room s).valve).isSome = true) →
      (candList prev l).isSome = true := by
  intro l
  induction l with
  | nil => intro _; simp [candList]
  | cons s rest ih =>
      intro h
      obtain ⟨p, hp⟩ := Option.isSome_iff_exists.mp (h s (by simp))
      obtain ⟨ps, hps⟩ := Option.isSome_iff_exists.mp (ih (fun s' hs' => h s' (by simp [hs'])))
      simp [candList, hp, hps]

theorem stepCandidates_shape {tn : Tunnels} {node : Nat} {room : Room} {steps : List Step}
    (h : stepCandidates tn node room = some steps) :
    ∃ ns, omap (fun i => tn.nodes[i]?.map Step.Go) (neighbors tn node) = some ns ∧
      steps = ns ++ [Step.Open room] := by
  rw [stepCandidates] at h
  cases hns : omap (fun i => tn.nodes[i]?.map Step.Go) (neighbors tn node) with
  | none => rw [hns] at h; simp at h
  | some ns =>
      rw [hns] at h
      simp at h
      exact ⟨ns, rfl, h.symm⟩

theorem find_best_path_succ (tn : Tunnels) (room : String) (t : Nat) :
    find_best_path tn room (t + 1) = (candidatePaths tn room (t + 1)).map
      (fun cs => (maxByKeyLast (fun p => p.score (t + 1)) cs).getD Path.empty) := by
  cases hn : mapLookup room tn.room_nodes with
  | none => simp [find_best_path, candidatePaths, hn]
  | some node =>
      cases hr : tn.nodes[node]? with
      | none => simp [find_best_path, candidatePaths, hn, hr]
      | some r =>
          cases hs : stepCandidates tn node r with
          | none => simp [find_best_path, candidatePaths, hn, hr, hs]
          | some steps =>
              cases hc : candList (fun rm => find_best_path tn rm t) steps with
              | none => simp [find_best_path, candidatePaths, hn, hr, hs, hc]
              | some cs => simp [find_best_path, candidatePaths, hn, hr, hs, hc]

theorem find_best_path_isSome {tn : Tunnels} (inv : GraphInv tn) :
    ∀ (t : Nat) (room : String) (node : Nat), mapLookup room tn.room_nodes = some node →
      (find_best_path tn room t).isSome = true := by
  intro t
  induction t with
  | zero =>
      intro room node hn
      have hlt : node < tn.nodes.length := inv.2.1 _ (mapLookup_mem room _ _ hn)
      simp [find_best_path, hn, List.getElem?_eq_getElem hlt]
  | succ t ih =>
      intro room node hn
      have hlt : node < tn.nodes.length := inv.2.1 _ (mapLookup_mem room _ _ hn)
      obtain ⟨r, hr⟩ : ∃ r, tn.nodes[node]? = some r := ⟨_, List.getElem?_eq_getElem hlt⟩
      have hsteps : (stepCandidates tn node r).isSome = true := by
        rw [stepCandidates]
        have hom : (omap (fun i => tn.nodes[i]?.map Step.Go) (neighbors tn node)).isSome
            = true := by
          rw [omap_isSome_iff]
          intro i hi
          have hedge : ∃ e ∈ tn.edges, e.2 = i := by
            simp only [neighbors, List.mem_reverse, List.mem_map] at hi
            rcases hi with ⟨e, he, hei⟩
            exact ⟨e, (List.mem_filter.mp he).1, hei⟩
          rcases hedge with ⟨e, he, hei⟩
          have hilt : i < tn.nodes.length := by
            rw [← hei]
            exact inv.1 e he
          rw [List.getElem?_eq_getElem hilt]
          rfl
        obtain ⟨ns, hns⟩ := Option.isSome_iff_exists.mp hom
        simp [hns]
      obtain ⟨steps, hsteps'⟩ := Option.isSome_iff_exists.mp hsteps
      have hroom : ∀ s ∈ steps, ∃ node2, mapLookup (Step.room s).valve tn.room_nodes = some node2 := by
        intro s hs
        have hmem2 : (Step.room s) ∈ tn.nodes := by
          rcases stepCandidates_shape hsteps' with ⟨ns, hns, hshape⟩
          rw [hshape] at hs
          rcases List.mem_append.mp hs with hs | hs
          · rcases omap_mem _ _ ns hns s hs with ⟨i, _, hgs⟩
            cases hgi : tn.nodes[i]? with
            | none => rw [hgi] at hgs; simp at hgs
            | some r' =>
                rw [hgi] at hgs
                simp at hgs
                have : r' ∈ tn.nodes := List.getElem?_mem hgi
                rw [← hgs]
                exact this
          · have hs' : s = Step.Open r := by simpa using hs
            rw [hs']
            exact List.getElem?_mem hr
        exact Option.isSome_iff_exists.mp (inv.2.2 _ hmem2)
      have hcl : (candList (fun rm => find_best_path tn rm t) steps).isSome = true := by
        apply candList_isSome
        intro s hs
        rcases hroom s hs with ⟨node2, hn2⟩
        exact ih _ node2 hn2
      obtain ⟨cs, hcs⟩ := Option.isSome_iff_exists.mp hcl
      simp [find_best_path, hn, hr, hsteps', hcs]

theorem find_best_path_length (tn : Tunnels) :
    ∀ (t : Nat) (room : String) (p : Path), find_best_path tn room t = some p →
      p.steps.length = t := by
  intro t
  induction t with
  | zero =>
      intro room p h
      cases hn : mapLookup room tn.room_nodes with
      | none => simp [find_best_path, hn] at h
      | some node =>
          cases hr : tn.nodes[node]? with
          | none => simp [find_best_path, hn, hr] at h
          | some r =>
              simp [find_best_path, hn, hr] at h
              rw [← h]
              rfl
  | succ t ih =>
      intro room p h
      cases hn : mapLookup room tn.room_nodes with
      | none => simp [find_best_path, hn] at h
      | some node =>
          cases hr : tn.nodes[node]? with
          | none => simp [find_best_path, hn, hr] at h
          | some r =>
              cases hs : stepCandidates tn node r with
              | none => simp [find_best_path, hn, hr, hs] at h
              | some steps =>
                  cases hc : candList (fun rm => find_best_path tn rm t) steps with
                  | none => simp [find_best_path, hn, hr, hs, hc] at h
                  | some cs =>
                      simp [find_best_path, hn, hr, hs, hc] at h
                      have hlen := candList_length _ _ _ hc
                      have hne : steps ≠ [] := by
                        rcases stepCandidates_shape hs with ⟨ns, _, hshape⟩
                        simp [hshape]
                      cases cs with
                      | nil =>
                          exfalso
                          exact hne (List.length_eq_zero.mp hlen.symm ▸ rfl)
                      | cons c cs' =>
                          have hmem := maxByKeyLastAux_mem (fun p => p.score (t + 1)) cs' c
                          have hall : ∀ x ∈ c :: cs', x.steps.length = t + 1 := by
                            intro x hx
                            rcases candList_mem _ _ _ hc x hx with ⟨s, _, q, hq, hxq⟩
                            rw [hxq]
                            simp [Path.add, ih _ q hq]
                          rw [← h]
                          simp only [maxByKeyLast, Option.getD_some]
                          exact hall _ hmem

/-!
## Edge-list structure (for the round-trip claim)
-/

theorem buildEdges_src_lb (m : List (String × Nat)) :
    ∀ (scans : List TunnelScan) (k : Nat) (es : List (Nat × Nat)),
      buildEdges m scans = some es →
      (∀ j (hj : j < scans.length), mapLookup ((scans.get ⟨j, hj⟩).valve) m = some (k + j)) →
      ∀ e ∈ es, k ≤ e.1 := by
  intro scans
  induction scans with
  | nil =>
      intro k es h hlook e he
      simp [buildEdges] at h
      rw [h] at he
      simp at he
  | cons s rest ih =>
      intro k es h hlook e he
      have hnode : mapLookup s.valve m = some k := by simpa using hlook 0 (by simp)
      cases hes : omap (fun p => (mapLookup p m).map (fun pn => ((k : Nat), pn))) s.paths with
      | none => simp [buildEdges, hnode, hes] at h
      | some es0 =>
          cases hrest : buildEdges m rest with
          | none => simp [buildEdges, hnode, hes, hrest] at h
          | some restEs =>
              simp [buildEdges, hnode, hes, hrest] at h
              rw [← h] at he
              rcases List.mem_append.mp he with he | he
              · rcases omap_mem _ _ _ hes e he with ⟨p, _, hp⟩
                cases hpl : mapLookup p m with
                | none => rw [hpl] at hp; simp at hp
                | some pn =>
                    rw [hpl] at hp
                    simp at hp
                    rw [← hp]
              · have hlook2 : ∀ j (hj : j < rest.length),
                    mapLookup ((rest.get ⟨j, hj⟩).valve) m = some ((k + 1) + j) := by
                  intro j hj
                  have h3 := hlook (j + 1) (by simpa using hj)
                  have harith : k + (j + 1) = (k + 1) + j := by omega
                  rw [← harith]
                  exact h3
                have := ih (k + 1) restEs hrest hlook2 e he
                omega

theorem buildEdges_filter (m : List (String × Nat)) :
    ∀ (scans : List TunnelScan) (k : Nat) (es : List (Nat × Nat)),
      buildEdges m scans = some es →
      (∀ j (hj : j < scans.length), mapLookup ((scans.get ⟨j, hj⟩).valve) m = some (k + j)) →
      ∀ j (hj : j < scans.length),
        (es.filter (fun e => e.1 == k + j)).map Prod.snd =
          ((scans.get ⟨j, hj⟩).paths).map (fun p => (mapLookup p m).getD 0) := by
  intro scans
  induction scans with
  | nil => intro k es h hlook j hj; exact absurd hj (by simp)
  | cons s rest ih =>
      intro k es h hlook j hj
      have hnode : mapLookup s.valve m = some k := by simpa using hlook 0 (by simp)
      cases hes : omap (fun p => (mapLookup p m).map (fun pn => ((k : Nat), pn))) s.paths with
      | none => simp [buildEdges, hnode, hes] at h
      | some es0 =>
          cases hrest : buildEdges m rest with
          | none => simp [buildEdges, hnode, hes, hrest] at h
          | some restEs =>
              simp [buildEdges, hnode, hes, hrest] at h
              have hes0 : es0 = s.paths.map (fun p => ((k : Nat), (mapLookup p m).getD 0)) := by
                have hforall : ∀ p ∈ s.paths,
                    (mapLookup p m).map (fun pn => ((k : Nat), pn)) =
                      some (k, (mapLookup p m).getD 0) := by
                  intro p hp
                  have hps : (mapLookup p m).isSome = true := by
                    have := (omap_isSome_iff _ s.paths).mp (by rw [hes]; rfl) p hp
                    simpa using this
                  obtain ⟨pn, hpn⟩ := Option.isSome_iff_exists.mp hps
                  rw [hpn]
                  rfl
                have h2 := omap_eq_map_of _ _ s.paths hforall
                rw [hes] at h2
                exact Option.some_inj.mp h2
              have hlook2 : ∀ j2 (hj2 : j2 < rest.length),
                  mapLookup ((rest.get ⟨j2, hj2⟩).valve) m = some ((k + 1) + j2) := by
                intro j2 hj2
                have h3 := hlook (j2 + 1) (by simpa using hj2)
                have harith : k + (j2 + 1) = (k + 1) + j2 := by omega
                rw [← harith]
                exact h3
              rw [← h, List.filter_append, List.map_append]
              cases j with
              | zero =>
                  have hfilter0 : es0.filter (fun e => e.1 == k + 0) = es0 := by
                    apply List.filter_eq_self.mpr
                    intro e he
                    rw [hes0] at he
                    rcases List.mem_map.mp he with ⟨p, _, hpe⟩
                    rw [← hpe]
                    simp
                  have hfilterR : restEs.filter (fun e => e.1 == k + 0) = [] := by
                    apply List.filter_eq_nil_iff.mpr
                    intro e he
                    have hlb := buildEdges_src_lb m rest (k + 1) restEs hrest hlook2 e he
                    simp only [beq_iff_eq]
                    omega
                  rw [hfilter0, hfilterR]
                  rw [hes0, List.map_map, List.map_nil, List.append_nil]
                  rfl
              | succ j2 =>
                  have hfilter0 : es0.filter (fun e => e.1 == k + (j2 + 1)) = [] := by
                    apply List.filter_eq_nil_iff.mpr
                    intro e he
                    rw [hes0] at he
                    rcases List.mem_map.mp he with ⟨p, _, hpe⟩
                    rw [← hpe]
                    simp only [beq_iff_eq]
                    omega
                  rw [hfilter0, List.map_nil, List.nil_append]
                  have hj2 : j2 < rest.length := by simpa using hj
                  have hres := ih (k + 1) restEs hrest hlook2 j2 hj2
                  have harith : k + (j2 + 1) = (k + 1) + j2 := by omega
                  rw [harith]
                  exact hres

/-!
## Claim theorems
-/

/-- Claim C1, counterexample.  On the chain `SS→A0→XX(2)→MM(3)→HH(4)` with
budget 5, the code (which ranks candidates by their score under the
*remaining* time of each call) returns a different path than the variant
described by the claim (which ranks every level's candidates by their
score under the full original budget 5), so the claimed equivalence fails. -/
theorem claim1_counterexample :
    (from_scans scansChain).bind (fun tn => find_best_path tn "SS" 5) =
      some ⟨[Step.Open ⟨"HH", 4⟩, Step.Go ⟨"HH", 4⟩, Step.Go ⟨"MM", 3⟩,
        Step.Go ⟨"XX", 2⟩, Step.Go ⟨"A0", 0⟩]⟩ ∧
    (from_scans scansChain).bind (fun tn => find_best_path_specT tn "SS" 5 5) =
      some ⟨[Step.Open ⟨"MM", 3⟩, Step.Go ⟨"MM", 3⟩, Step.Open ⟨"XX", 2⟩,
        Step.Go ⟨"XX", 2⟩, Step.Go ⟨"A0", 0⟩]⟩ ∧
    (from_scans scansChain).bind (fun tn => find_best_path tn "SS" 5) ≠
      (from_scans scansChain).bind (fun tn => find_best_path_specT tn "SS" 5 5) := by
  refine ⟨by decide, by decide, by decide⟩

/-- Claim C1, amended.  At every recursion level with remaining time
`t + 1`, the candidate selected by `find_best_path` is maximal among the
level's candidate paths with respect to the score under the *remaining*
time `t + 1` of that call (which equals the original budget only at the
top level), not under the original total budget. -/
theorem claim1_ranked_by_remaining_time (tn : Tunnels) (room : String) (t : Nat)
    (cs : List Path) (p : Path) (hcs : candidatePaths tn room (t + 1) = some cs)
    (hp : find_best_path tn room (t + 1) = some p) :
    ∀ q ∈ cs, q.score (t + 1) ≤ p.score (t + 1) := by
  rw [find_best_path_succ, hcs] at hp
  simp only [Option.map_some', Option.some.injEq] at hp
  intro q hq
  cases cs with
  | nil => simp at hq
  | cons c cs' =>
      simp only [maxByKeyLast, Option.getD_some] at hp
      rw [← hp]
      exact maxByKeyLastAux_le (fun p => p.score (t + 1)) cs' c q hq

/-- Witness for the amended claim C1 at a concrete input. -/
theorem claim1_witness :
    candidatePaths tnTie "AA" 1 = some [⟨[Step.Go ⟨"BB", 0⟩]⟩, ⟨[Step.Open ⟨"AA", 0⟩]⟩] ∧
    find_best_path tnTie "AA" 1 = some ⟨[Step.Open ⟨"AA", 0⟩]⟩ ∧
    ∀ q ∈ [(⟨[Step.Go ⟨"BB", 0⟩]⟩ : Path), ⟨[Step.Open ⟨"AA", 0⟩]⟩],
      q.score 1 ≤ (⟨[Step.Open ⟨"AA", 0⟩]⟩ : Path).score 1 :=
  ⟨by decide, by decide,
    claim1_ranked_by_remaining_time tnTie "AA" 0 _ _ (by decide) (by decide)⟩

/-- Claim C2, counterexample.  On `AA(0)→BB(5)` with budget 2 the returned
path is `[Open BB, Go BB]`: its *first* element is not among the candidate
actions available at the starting room `AA`, so the path is not in
chronological order with the chosen action prepended — the chosen action
is appended and the list is reverse-chronological. -/
theorem claim2_counterexample :
    (from_scans scansAB).bind (fun tn => find_best_path tn "AA" 2) =
      some ⟨[Step.Open ⟨"BB", 5⟩, Step.Go ⟨"BB", 5⟩]⟩ ∧
    stepCandidates tnAB 0 ⟨"AA", 0⟩ = some [Step.Go ⟨"BB", 5⟩, Step.Open ⟨"AA", 0⟩] ∧
    Step.Open ⟨"BB", 5⟩ ∉ [Step.Go ⟨"BB", 5⟩, Step.Open ⟨"AA", 0⟩] := by
  refine ⟨by decide, by decide, by decide⟩

/-- Claim C2, amended.  At each recursive level the chosen action is
*appended* to the recursively returned sub-path (`Path::add` pushes at the
end), so the returned path is the sub-path followed by this level's
action: the first action performed is the *last* element, and the Scorer's
left-to-right replay visits the actions in reverse chronological order. -/
theorem claim2_step_appended (tn : Tunnels) (room : String) (t : Nat) (p : Path)
    (hp : find_best_path tn room (t + 1) = some p) :
    ∃ node r steps s q, mapLookup room tn.room_nodes = some node ∧
      tn.nodes[node]? = some r ∧ stepCandidates tn node r = some steps ∧ s ∈ steps ∧
      find_best_path tn (Step.room s).valve t = some q ∧ p = q.add s := by
  cases hn : mapLookup room tn.room_nodes with
  | none => simp [find_best_path, hn] at hp
  | some node =>
      cases hr : tn.nodes[node]? with
      | none => simp [find_best_path, hn, hr] at hp
      | some r =>
          cases hs : stepCandidates tn node r with
          | none => simp [find_best_path, hn, hr, hs] at hp
          | some steps =>
              cases hc : candList (fun rm => find_best_path tn rm t) steps with
              | none => simp [find_best_path, hn, hr, hs, hc] at hp
              | some cs =>
                  simp [find_best_path, hn, hr, hs, hc] at hp
                  have hlen := candList_length _ _ _ hc
                  have hne : steps ≠ [] := by
                    rcases stepCandidates_shape hs with ⟨ns, _, hshape⟩
                    simp [hshape]
                  cases cs with
                  | nil =>
                      exfalso
                      exact hne (List.length_eq_zero.mp hlen.symm ▸ rfl)
                  | cons c cs' =>
                      have hmem := maxByKeyLastAux_mem (fun p => p.score (t + 1)) cs' c
                      have hp2 : maxByKeyLastAux (fun p => p.score (t + 1)) c cs' = p := by
                        rw [← hp]
                        simp [maxByKeyLast]
                      rw [hp2] at hmem
                      rcases candList_mem _ _ _ hc p hmem with ⟨s, hsmem, q, hq, hqe⟩
                      exact ⟨node, r, steps, s, q, rfl, hr, hs, hsmem, hq, hqe⟩

/-- Witness for the amended claim C2 at a concrete input. -/
theorem claim2_witness :
    ∃ node r steps s q, mapLookup "AA" tnAB.room_nodes = some node ∧
      tnAB.nodes[node]? = some r ∧ stepCandidates tnAB node r = some steps ∧ s ∈ steps ∧
      find_best_path tnAB (Step.room s).valve 1 = some q ∧
      (⟨[Step.Open ⟨"BB", 5⟩, Step.Go ⟨"BB", 5⟩]⟩ : Path) = q.add s :=
  claim2_step_appended tnAB "AA" 1 ⟨[Step.Open ⟨"BB", 5⟩, Step.Go ⟨"BB", 5⟩]⟩ (by decide)

/-- Claim C3, counterexample.  For the single node `AA` with rate 1 and
budget 1 the returned path scores 1, not `r * (t - 1) = 0`: the scorer
adds the newly opened valve's rate already in the step of opening. -/
theorem claim3_counterexample :
    (from_scans [singleScan 1]).bind
      (fun tn => (find_best_path tn "AA" 1).map (fun p => p.score 1)) = some 1 ∧
    (1 : Nat) ≠ 1 * (1 - 1) := by
  refine ⟨by decide, by decide⟩

/-- Claim C3, amended.  For a single-node graph with no edges and reward
rate `r`, the path returned by `find_best_path` for budget `t` scores
`r * t` under budget `t` (the activation step itself already accrues the
rate), for every `t` — in particular `0` for `t = 0`. -/
theorem claim3_single_node_score (r t : Nat) :
    ∃ tn, from_scans [singleScan r] = some tn ∧
      (find_best_path tn "AA" t).map (fun p => p.score t) = some (r * t) := by
  refine ⟨_, from_scans_single r, ?_⟩
  rw [find_best_path_single r t]
  simp only [Option.map_some', Option.some.injEq, score_replicate]

/-- Claim C4, counterexample.  On `AA(0)→BB(0)` with budget 1 the two
candidates `Go BB` and `Open AA` tie at score 0; the claim's rule (first
in enumeration order, Moves before Activate) would pick `Go BB`, but the
code picks `Open AA` because Rust's `max_by_key` returns the *last*
maximal element. -/
theorem claim4_counterexample :
    (from_scans scansTie).bind (fun tn => find_best_path tn "AA" 1) =
      some ⟨[Step.Open ⟨"AA", 0⟩]⟩ ∧
    (from_scans scansTie).bind (fun tn => find_best_path_spec4 tn "AA" 1) =
      some ⟨[Step.Go ⟨"BB", 0⟩]⟩ ∧
    (some (⟨[Step.Open ⟨"AA", 0⟩]⟩ : Path) : Option Path) ≠ some ⟨[Step.Go ⟨"BB", 0⟩]⟩ := by
  refine ⟨by decide, by decide, by decide⟩

/-- Claim C4, amended.  The selection is still deterministic, but ties are
broken in favour of the *last* maximal candidate in iteration order (the
iteration lists `Go` steps for the neighbors in reverse edge-insertion
order and the `Activate` last): the returned path occupies a position `i`
of the candidate list such that every candidate scores at most as much and
every *later* candidate scores strictly less.  Consequently a Move that
ties with the Activate loses to the Activate, while of two tied neighbors
the one declared *first* (hence iterated last) is chosen. -/
theorem claim4_last_maximal_selected (tn : Tunnels) (room : String) (t : Nat)
    (cs : List Path) (p : Path) (hcs : candidatePaths tn room (t + 1) = some cs)
    (hp : find_best_path tn room (t + 1) = some p) (hne : cs ≠ []) :
    ∃ i, ∃ h : i < cs.length, cs.get ⟨i, h⟩ = p ∧
      (∀ j, ∀ hj : j < cs.length, (cs.get ⟨j, hj⟩).score (t + 1) ≤ p.score (t + 1)) ∧
      ∀ j, ∀ hj : j < cs.length, i < j → (cs.get ⟨j, hj⟩).score (t + 1) < p.score (t + 1) := by
  rw [find_best_path_succ, hcs] at hp
  cases cs with
  | nil => exact absurd rfl hne
  | cons c cs' =>
      simp only [Option.map_some', Option.some.injEq, maxByKeyLast, Option.getD_some] at hp
      obtain ⟨i, hlt2, hget, hlast⟩ := maxByKeyLastAux_argmax (fun p => p.score (t + 1)) cs' c
      refine ⟨i, hlt2, by rw [hget, hp], ?_, ?_⟩
      · intro j hj
        rw [← hp]
        exact maxByKeyLastAux_le (fun p => p.score (t + 1)) cs' c _ (List.get_mem _ _ _)
      · intro j hj hij
        rw [← hp]
        exact hlast j hj hij

/-- Witness for the amended claim C4 at a concrete input. -/
theorem claim4_witness :
    ∃ i, ∃ h : i < ([(⟨[Step.Go ⟨"BB", 0⟩]⟩ : Path), ⟨[Step.Open ⟨"AA", 0⟩]⟩] : List Path).length,
      ([(⟨[Step.Go ⟨"BB", 0⟩]⟩ : Path), ⟨[Step.Open ⟨"AA", 0⟩]⟩] : List Path).get ⟨i, h⟩ =
        ⟨[Step.Open ⟨"AA", 0⟩]⟩ ∧
      (∀ j, ∀ hj : j < ([(⟨[Step.Go ⟨"BB", 0⟩]⟩ : Path), ⟨[Step.Open ⟨"AA", 0⟩]⟩] : List Path).length,
        (([(⟨[Step.Go ⟨"BB", 0⟩]⟩ : Path), ⟨[Step.Open ⟨"AA", 0⟩]⟩] : List Path).get
          ⟨j, hj⟩).score 1 ≤ (⟨[Step.Open ⟨"AA", 0⟩]⟩ : Path).score 1) ∧
      ∀ j, ∀ hj : j < ([(⟨[Step.Go ⟨"BB", 0⟩]⟩ : Path), ⟨[Step.Open ⟨"AA", 0⟩]⟩] : List Path).length,
        i < j → (([(⟨[Step.Go ⟨"BB", 0⟩]⟩ : Path), ⟨[Step.Open ⟨"AA", 0⟩]⟩] : List Path).get
          ⟨j, hj⟩).score 1 < (⟨[Step.Open ⟨"AA", 0⟩]⟩ : Path).score 1 :=
  claim4_last_maximal_selected tnTie "AA" 0 _ _ (by decide) (by decide) (by decide)

/-- Claim C5, confirmed.  `Path::score` coincides with the reference
Scorer of the specification: step by step, apply the action at the current
index (if any), then add the sum of the open valves' rates; a path shorter
than the budget keeps accruing with its final active set, and a zero
budget scores zero. -/
theorem claim5_score_matches_reference (p : Path) (total : Nat) :
    Path.score p total = scoreSpec p total :=
  scoreAux_eq_spec total [] p.steps

/-- Claim C6, counterexample.  A duplicated node id is accepted without
any error (`from_scans` succeeds), and a dangling neighbor reference makes
`from_scans` panic (modelled `none`) rather than return a recoverable
error — there is no validation at all in the code. -/
theorem claim6_counterexample :
    (from_scans scansDup).isSome = true ∧
    (scansDup.map TunnelScan.valve).count "AA" = 2 ∧
    from_scans scansDangling = none := by
  refine ⟨by decide, by decide, by decide⟩

/-- Claim C6, amended.  `Tunnels::from_scans` performs no validation:
it succeeds exactly when every declared neighbor id is among the declared
node ids (otherwise the `unwrap` panics — a fatal abort, not a recoverable
error), and duplicate node ids are silently accepted (the later
declaration shadows the earlier one in the name map, both stay in the
graph). -/
theorem claim6_no_validation (scans : List TunnelScan) :
    (from_scans scans).isSome = true ↔
      ∀ s ∈ scans, ∀ p ∈ s.paths, p ∈ scans.map TunnelScan.valve :=
  from_scans_isSome_iff scans

/-- Claim C7, counterexample.  `AA` declares the adjacency `[BB, CC]`,
but reading the neighbors back through the graph yields `[CC, BB]`:
petgraph's `neighbors` iterates a node's outgoing edges most-recent-first,
so the declared order is reversed, not reproduced. -/
theorem claim7_counterexample :
    from_scans scansABC = some tnABC ∧
    omap (fun i => tnABC.nodes[i]?.map Room.valve) (neighbors tnABC 0) = some ["CC", "BB"] ∧
    scansABC.map TunnelScan.paths = [["BB", "CC"], [], []] ∧
    (["CC", "BB"] : List String) ≠ ["BB", "CC"] := by
  refine ⟨by decide, by decide, by decide, by decide⟩

/-- Claim C7, amended.  For records with pairwise-distinct ids whose
neighbor ids are all declared, building the graph and reading back the
neighbors of the `j`-th record's node reproduces exactly the *reverse* of
that record's declared adjacency list; the order is still stable (a pure
function of the input). -/
theorem claim7_neighbors_reverse_declared (scans : List TunnelScan) (tn : Tunnels)
    (hnd : (scans.map TunnelScan.valve).Nodup)
    (hcl : ∀ s ∈ scans, ∀ p ∈ s.paths, p ∈ scans.map TunnelScan.valve)
    (htn : from_scans scans = some tn) (j : Nat) (hj : j < scans.length) :
    mapLookup ((scans.get ⟨j, hj⟩).valve) tn.room_nodes = some j ∧
    omap (fun i => tn.nodes[i]?.map Room.valve) (neighbors tn j) =
      some ((scans.get ⟨j, hj⟩).paths).reverse := by
  simp only [from_scans] at htn
  cases hes : buildEdges (buildRoomNodes scans 0) scans with
  | none => rw [hes] at htn; exact absurd htn (by simp)
  | some es =>
      rw [hes] at htn
      simp only [Option.map_some', Option.some.injEq] at htn
      subst htn
      have hlook : ∀ j2 (hj2 : j2 < scans.length),
          mapLookup ((scans.get ⟨j2, hj2⟩).valve) (buildRoomNodes scans 0) = some (0 + j2) :=
        fun j2 hj2 => lookup_buildRoomNodes_nodup scans hnd 0 j2 hj2
      constructor
      · have h0 := hlook j hj
        rw [Nat.zero_add] at h0
        exact h0
      · have hfilter := buildEdges_filter (buildRoomNodes scans 0) scans 0 es hes hlook j hj
        rw [Nat.zero_add] at hfilter
        have hnb : neighbors
            ⟨buildRoomNodes scans 0,
              scans.map (fun s => { valve := s.valve, flow_rate := s.flow_rate }), es⟩ j =
            (((scans.get ⟨j, hj⟩).paths).map
              (fun p => (mapLookup p (buildRoomNodes scans 0)).getD 0)).reverse :=
          congrArg List.reverse hfilter
        rw [hnb, ← List.map_reverse, omap_map_comp]
        have hall : ∀ p ∈ ((scans.get ⟨j, hj⟩).paths).reverse,
            (scans.map (fun s =>
              ({ valve := s.valve, flow_rate := s.flow_rate } : Room)))[(mapLookup p
                (buildRoomNodes scans 0)).getD 0]?.map Room.valve = some p := by
          intro p hp
          have hpmem : p ∈ scans.map TunnelScan.valve :=
            hcl _ (List.get_mem scans j hj) p (List.mem_reverse.mp hp)
          rcases List.mem_map.mp hpmem with ⟨s2, hs2, hps⟩
          rcases List.mem_iff_get.mp hs2 with ⟨⟨j2, hj2⟩, hget⟩
          have hlp : mapLookup p (buildRoomNodes scans 0) = some j2 := by
            have h4 := hlook j2 hj2
            rw [Nat.zero_add, hget, hps] at h4
            exact h4
          rw [hlp, Option.getD_some, List.getElem?_map, List.getElem?_eq_getElem hj2]
          simp only [Option.map_some', Option.some.injEq]
          show (scans.get ⟨j2, hj2⟩).valve = p
          rw [hget, hps]
        have hid := omap_eq_map_of (fun p => ((scans.map (fun s =>
            ({ valve := s.valve, flow_rate := s.flow_rate } : Room)))[(mapLookup p
              (buildRoomNodes scans 0)).getD 0]?).map Room.valve) id _ hall
        rw [List.map_id] at hid
        exact hid

/-- Witness for the amended claim C7 at a concrete input. -/
theorem claim7_witness :
    mapLookup ((scansABC.get ⟨0, by decide⟩).valve) tnABC.room_nodes = some 0 ∧
    omap (fun i => tnABC.nodes[i]?.map Room.valve) (neighbors tnABC 0) =
      some ((scansABC.get ⟨0, by decide⟩).paths).reverse :=
  claim7_neighbors_reverse_declared scansABC tnABC (by decide) (by decide) (by decide) 0
    (by decide)

/-- Claim C8, counterexample.  Even over a successfully validated graph,
`find_best_path` panics (modelled `none`: the `unwrap` of the starting
room's lookup fails) when the caller-supplied starting room is not a
node of the graph, so the Search Engine is not total in all of its
arguments. -/
theorem claim8_counterexample :
    (from_scans [singleScan 1]).isSome = true ∧
    (from_scans [singleScan 1]).bind (fun tn => find_best_path tn "ZZ" 1) = none := by
  refine ⟨by decide, by decide⟩

/-- Claim C8, amended.  Over a graph built by `from_scans` and for a
starting room that is present in the graph's name map, `find_best_path`
is total for every budget: it never panics (no `unwrap` failure, no
out-of-range index) and returns a path.  (`Path::score` is total by
construction, as is visible from its type.) -/
theorem claim8_search_total_for_known_start (scans : List TunnelScan) (tn : Tunnels)
    (htn : from_scans scans = some tn) (start : String) (t : Nat)
    (hstart : (mapLookup start tn.room_nodes).isSome = true) :
    (find_best_path tn start t).isSome = true := by
  obtain ⟨node, hn⟩ := Option.isSome_iff_exists.mp hstart
  exact find_best_path_isSome (from_scans_graphInv htn) t start node hn

/-- Witness for the amended claim C8 at a concrete input. -/
theorem claim8_witness :
    from_scans scansAB = some tnAB ∧
    (mapLookup "AA" tnAB.room_nodes).isSome = true ∧
    (find_best_path tnAB "AA" 3).isSome = true :=
  ⟨by decide, by decide,
    claim8_search_total_for_known_start scansAB tnAB (by decide) "AA" 3 (by decide)⟩

/-- Claim C9, confirmed.  Score is invariant under duplicate activation:
a path with two consecutive `Open n` steps scores the same, under every
budget, as the path whose second `Open n` is replaced by any step `s`
that leaves the active set reached at that point unchanged (every `Go`,
and also `Open` of an already-open valve, qualifies). -/
theorem claim9_duplicate_activation (xs ys : List Step) (n : Room) (s : Step) (time : Nat)
    (hs : applyStep (applyList [] (xs ++ [Step.Open n])) s = applyList [] (xs ++ [Step.Open n])) :
    Path.score ⟨xs ++ Step.Open n :: Step.Open n :: ys⟩ time =
      Path.score ⟨xs ++ Step.Open n :: s :: ys⟩ time :=
  scoreAux_dup n s ys xs [] time hs

/-- Witness for claim C9 at a concrete input. -/
theorem claim9_witness :
    applyStep (applyList [] ([Step.Go ⟨"BB", 2⟩] ++ [Step.Open ⟨"AA", 1⟩])) (Step.Go ⟨"BB", 2⟩) =
      applyList [] ([Step.Go ⟨"BB", 2⟩] ++ [Step.Open ⟨"AA", 1⟩]) ∧
    Path.score ⟨[Step.Go ⟨"BB", 2⟩] ++ Step.Open ⟨"AA", 1⟩ :: Step.Open ⟨"AA", 1⟩ :: [Step.Go ⟨"BB", 2⟩]⟩ 5 =
      Path.score ⟨[Step.Go ⟨"BB", 2⟩] ++ Step.Open ⟨"AA", 1⟩ :: Step.Go ⟨"BB", 2⟩ :: [Step.Go ⟨"BB", 2⟩]⟩ 5 :=
  ⟨by decide,
    claim9_duplicate_activation [Step.Go ⟨"BB", 2⟩] [Step.Go ⟨"BB", 2⟩] ⟨"AA", 1⟩
      (Step.Go ⟨"BB", 2⟩) 5 (by decide)⟩

/-- Claim C10, confirmed.  For every graph built from records and every
starting room present in its name map, the search returns a path of
*exactly* `t` steps for budget `t`: the `Activate` candidate makes the
candidate set nonempty at every level with positive remaining time, so
the empty-path fallback of the missing-candidate case is never taken. -/
theorem claim10_full_length_path (scans : List TunnelScan) (tn : Tunnels)
    (htn : from_scans scans = some tn) (start : String) (node : Nat)
    (hstart : mapLookup start tn.room_nodes = some node) (t : Nat) :
    ∃ p, find_best_path tn start t = some p ∧ p.steps.length = t := by
  have hs := find_best_path_isSome (from_scans_graphInv htn) t start node hstart
  obtain ⟨p, hp⟩ := Option.isSome_iff_exists.mp hs
  exact ⟨p, hp, find_best_path_length tn t start p hp⟩

/-- Witness for claim C10 at a concrete input. -/
theorem claim10_witness :
    ∃ p, find_best_path tnAB "AA" 2 = some p ∧ p.steps.length = 2 :=
  claim10_full_length_path scansAB tnAB (by decide) "AA" 0 (by decide) 2

end Day16
